import Mathlib

/-!
Shallow embedding of the jsonc columnar shredding engine.

Sources embedded:
- src/datum.rs            : the row value model (Datum, InternalType).
- src/columnar.rs         : Stripe, Path, PathComponent and the recursive
                            shredding routine push_datum_at_path.
- src/columnar/column.rs  : the revised Column (TinyInt/SmallInt support,
                            32-bit index entries), its add_datum and up_cast.

Modelling conventions:
- Rust panics (todo! and unreachable! and BTreeMap get .unwrap) are modelled
  by Option: none means the call aborts.
- f64 payloads are modelled as Rat. The columnar code performs no float
  arithmetic: it only stores f64 values and converts i8 and i16 values with
  the as operator, which is exact for every such value (53-bit mantissa), so
  the rational model is value-faithful for everything the code does.
- i8 and i16 payloads are modelled as Int. The code never performs wrapping
  arithmetic on them; the only conversions are the value-preserving widenings
  i8 to i16 and i8 or i16 to f64.
- usize index entries are narrowed with the as operator to u32 in the revised
  column and to u16 in the older revision; this is modelled explicitly as
  reduction mod 2 ^ 32, respectively mod 2 ^ 16.
- bit_vec BitVec is modelled as List Bool; Vec as List.
- HashMap String Datum (object fields) is modelled as an association list;
  the source iterates fields in unspecified hash order and the model iterates
  in list order, which the spec declares order-insensitive.
- BTreeMap Path Column is modelled as an association list with lookup by
  propositional key equality; the map order only matters for persistence,
  which is outside the embedded core.
- Rust String.len is the UTF-8 byte length, modelled as String.utf8ByteSize.
-/

namespace Jsonc

/-- Row oriented layout for json-like data (src/datum.rs, enum Datum). -/
inductive Datum where
  | null
  | missing
  | float (f : Rat)
  | tinyInt (i : Int)
  | smallInt (i : Int)
  | bool (b : Bool)
  | string (s : String)
  | array (elems : List Datum)
  | object (fields : List (String × Datum))

/-- Internal type tags (src/datum.rs, enum InternalType). -/
inductive InternalType where
  | null
  | missing
  | float
  | tinyInt
  | smallInt
  | bool
  | string
  | array
  | object
  | union
deriving DecidableEq

/-- Datum::is_null (src/datum.rs). -/
def Datum.is_null : Datum → Bool
  | .null => true
  | _ => false

/-- Datum::is_missing (src/datum.rs). -/
def Datum.is_missing : Datum → Bool
  | .missing => true
  | _ => false

/-- Datum::internal_type (src/datum.rs). -/
def Datum.internal_type : Datum → InternalType
  | .null => .null
  | .missing => .missing
  | .float _ => .float
  | .bool _ => .bool
  | .string _ => .string
  | .array _ => .array
  | .object _ => .object
  | .tinyInt _ => .tinyInt
  | .smallInt _ => .smallInt

/-- Union entries (src/columnar/column.rs, enum Union): like a datum but
arrays and objects keep only their size. -/
inductive Union where
  | null
  | float (f : Rat)
  | bool (b : Bool)
  | string (s : String)
  | array (n : Nat)
  | object (n : Nat)
deriving DecidableEq

/-- The actual data inside one column (src/columnar/column.rs, enum
ColumnData). -/
inductive ColumnData where
  | null
  | tinyInt (v : List Int)
  | smallInt (v : List Int)
  | float (v : List Rat)
  | bool (v : List Bool)
  | string (buf : String) (offsets : List Nat)
  | object (sizes : List Nat)
  | array (sizes : List Nat)
  | union (v : List Union)
deriving DecidableEq

/-- ColumnData::is_null (src/columnar/column.rs). -/
def ColumnData.is_null : ColumnData → Bool
  | .null => true
  | _ => false

/-- ColumnData::type_for (src/columnar/column.rs). -/
def ColumnData.type_for : ColumnData → InternalType
  | .null => .null
  | .tinyInt _ => .tinyInt
  | .smallInt _ => .smallInt
  | .float _ => .float
  | .bool _ => .bool
  | .string _ _ => .string
  | .object _ => .object
  | .array _ => .array
  | .union _ => .union

/-- Number of entries stored in a data payload; none for the untyped Null
representation, which holds no data vector. -/
def ColumnData.dataLen : ColumnData → Option Nat
  | .null => none
  | .tinyInt v => some v.length
  | .smallInt v => some v.length
  | .float v => some v.length
  | .bool v => some v.length
  | .string _ offsets => some offsets.length
  | .object v => some v.length
  | .array v => some v.length
  | .union v => some v.length

/-- A segment of a path to a json node (src/columnar.rs, enum
PathComponent). -/
inductive PathComponent where
  | key (name : String)
  | array
deriving DecidableEq

/-- A path to a json node (src/columnar.rs, type Path). -/
abbrev Path := List PathComponent

/-- Represents the data at a given path (src/columnar/column.rs, struct
Column). Index entries are stored already reduced mod 2 ^ 32, mirroring
the push of the usize index as u32. -/
structure Column where
  indexes : List (List Nat)
  data : ColumnData
  null_map : List Bool
deriving DecidableEq

/-- Column::new (src/columnar/column.rs). -/
def Column.new (depth : Nat) : Column :=
  { indexes := List.replicate depth [], data := .null, null_map := [] }

/-- The index-push loop of add_datum: each context index is appended to the
corresponding buffer after narrowing to the given bit width (32 in
src/columnar/column.rs line 25, 16 in the older revision src/columnar.rs
line 149). The zip stops at the shorter of the two lists, as iter().zip
does. -/
def push_indexes (width : Nat) : List (List Nat) → List Nat → List (List Nat)
  | [], _ => []
  | bufs, [] => bufs
  | buf :: bufs, i :: is => (buf ++ [i % 2 ^ width]) :: push_indexes width bufs is

/-- Column::up_cast (src/columnar/column.rs lines 73-129): widen the data
representation to accept the incoming type. The final catch-all arm of the
source is todo!, a panic, modelled as none. -/
def Column.up_cast (c : Column) (data_type : InternalType) : Option Column :=
  match c.data, data_type with
  -- Null data or union columns are like wildcards.
  | _, .missing | _, .null | .union _, _ => some c
  -- Column type matches, we're ok.
  | .float _, .float | .tinyInt _, .tinyInt | .smallInt _, .smallInt
  | .array _, .array | .string _ _, .string | .object _, .object
  | .bool _, .bool => some c
  -- Compatible columns.
  | .smallInt _, .tinyInt | .float _, .tinyInt | .float _, .smallInt => some c
  -- Column type is null, just upcast, padding with default values.
  | .null, .bool =>
      some { c with data := .bool (List.replicate c.null_map.length false) }
  | .null, .tinyInt =>
      some { c with data := .tinyInt (List.replicate c.null_map.length 0) }
  | .null, .smallInt =>
      some { c with data := .smallInt (List.replicate c.null_map.length 0) }
  | .null, .float =>
      some { c with data := .float (List.replicate c.null_map.length 0) }
  | .null, .object =>
      some { c with data := .object (List.replicate c.null_map.length 0) }
  | .null, .array =>
      some { c with data := .array (List.replicate c.null_map.length 0) }
  | .null, .string =>
      some { c with data := .string "" (List.replicate c.null_map.length 0) }
  -- Special cases to upcast numeric types (i8 to i16 and int to f64 are
  -- value-preserving, hence the identity and the rational cast).
  | .tinyInt v, .smallInt => some { c with data := .smallInt v }
  | .tinyInt v, .float =>
      some { c with data := .float (v.map (fun (i : Int) => (i : Rat))) }
  | .smallInt v, .float =>
      some { c with data := .float (v.map (fun (i : Int) => (i : Rat))) }
  -- Otherwise we have to convert to a union type: todo! in the source.
  | _, _ => none

/-- The data-push match of Column::add_datum (src/columnar/column.rs lines
28-69), factored over the current payload and the incoming datum. The
unreachable! arms are modelled as none. -/
def push_data : ColumnData → Datum → Option ColumnData
  | .null, .null => some .null
  | .null, _ => none
  | .bool v, .bool b => some (.bool (v ++ [b]))
  | .bool v, .null => some (.bool (v ++ [false]))
  | .bool _, _ => none
  | .tinyInt v, .tinyInt i => some (.tinyInt (v ++ [i]))
  | .tinyInt v, .null => some (.tinyInt (v ++ [0]))
  | .tinyInt _, _ => none
  | .smallInt v, .smallInt i => some (.smallInt (v ++ [i]))
  | .smallInt v, .tinyInt i => some (.smallInt (v ++ [i]))
  | .smallInt v, .null => some (.smallInt (v ++ [0]))
  | .smallInt _, _ => none
  | .float v, .float f => some (.float (v ++ [f]))
  | .float v, .smallInt i => some (.float (v ++ [(i : Rat)]))
  | .float v, .tinyInt i => some (.float (v ++ [(i : Rat)]))
  | .float v, .null => some (.float (v ++ [0]))
  | .float _, _ => none
  | .string buf offsets, .string s =>
      some (.string (buf ++ s) (offsets ++ [(buf ++ s).utf8ByteSize]))
  | .string buf offsets, .null =>
      some (.string buf (offsets ++ [buf.utf8ByteSize]))
  | .string _ _, _ => none
  | .array sizes, .array arr => some (.array (sizes ++ [arr.length]))
  | .array sizes, .null => some (.array (sizes ++ [0]))
  | .array _, _ => none
  | .object sizes, .object obj => some (.object (sizes ++ [obj.length]))
  | .object sizes, .null => some (.object (sizes ++ [0]))
  | .object _, _ => none
  | .union v, .null => some (.union (v ++ [.null]))
  | .union _, .missing => none
  | .union v, .bool b => some (.union (v ++ [.bool b]))
  | .union v, .tinyInt i => some (.union (v ++ [.float (i : Rat)]))
  | .union v, .smallInt i => some (.union (v ++ [.float (i : Rat)]))
  | .union v, .float f => some (.union (v ++ [.float f]))
  | .union v, .string s => some (.union (v ++ [.string s]))
  | .union v, .object obj => some (.union (v ++ [.object obj.length]))
  | .union v, .array arr => some (.union (v ++ [.array arr.length]))

/-- Column::add_datum (src/columnar/column.rs lines 22-70): up_cast, push
one entry onto each index buffer, push the null bit, then push the data
payload. -/
def Column.add_datum (c : Column) (datum : Datum) (indexes : List Nat) :
    Option Column :=
  match c.up_cast datum.internal_type with
  | none => none
  | some c1 =>
    match push_data c1.data datum with
    | none => none
    | some d =>
        some { indexes := push_indexes 32 c1.indexes indexes,
               data := d,
               null_map := c1.null_map ++ [datum.is_null] }

/-- Lookup in the path-to-column map (models BTreeMap get /
contains_key). -/
def lookup_column : List (Path × Column) → Path → Option Column
  | [], _ => none
  | (p, c) :: rest, path => if p = path then some c else lookup_column rest path

/-- Replace the column stored at a path (models the in-place mutation
through BTreeMap get_mut). -/
def update_column (cols : List (Path × Column)) (path : Path) (c : Column) :
    List (Path × Column) :=
  cols.map fun pc => if pc.1 = path then (path, c) else pc

/-- Insert a fresh column (models BTreeMap insert, performed only when the
key is absent; the map order is irrelevant to the embedded claims). -/
def insert_column (cols : List (Path × Column)) (path : Path) (c : Column) :
    List (Path × Column) :=
  cols ++ [(path, c)]

/-- A chunk of data serialized in one go (src/columnar.rs, struct
Stripe). -/
structure Stripe where
  columns : List (Path × Column)
  count : Nat

/-- Stripe::new (src/columnar.rs). -/
def Stripe.new : Stripe :=
  { columns := [], count := 0 }

/-- Stripe::get_column (src/columnar.rs). -/
def Stripe.get_column (s : Stripe) (path : Path) : Option Column :=
  lookup_column s.columns path

/-- The non-recursive column step of push_datum_at_path (src/columnar.rs
lines 96-100): create the column on demand with depth equal to the context
length, feed it the datum, and write it back. -/
def step_column (cols : List (Path × Column)) (path : Path) (datum : Datum)
    (indexes : List Nat) : Option (List (Path × Column)) :=
  let cols1 :=
    if (lookup_column cols path).isNone
    then insert_column cols path (Column.new indexes.length)
    else cols
  match lookup_column cols1 path with
  | none => none
  | some column =>
    match column.add_datum datum indexes with
    | none => none
    | some column1 => some (update_column cols1 path column1)

mutual

/-- Stripe::push_datum_at_path (src/columnar.rs lines 92-126): the
recursive shredding routine. Missing returns at once; otherwise the column
at the path is created on demand and receives the datum, then objects
recurse per field with the same index context and arrays recurse per
element with the context extended by the element's position. -/
def Stripe.push_datum_at_path (s : Stripe) (datum : Datum) (path : Path)
    (indexes : List Nat) : Option Stripe :=
  if datum.is_missing then some s
  else
    match step_column s.columns path datum indexes with
    | none => none
    | some cols1 =>
      match datum with
      | .object obj => Stripe.push_fields { s with columns := cols1 } obj path indexes
      | .array arr => Stripe.push_elems { s with columns := cols1 } arr path 0 indexes
      | _ => some { s with columns := cols1 }
termination_by sizeOf datum

/-- The per-field loop of push_datum_at_path for objects: each field
recurses at path ++ Key(key) with the unchanged index context. -/
def Stripe.push_fields (s : Stripe) (fields : List (String × Datum))
    (path : Path) (indexes : List Nat) : Option Stripe :=
  match fields with
  | [] => some s
  | (key, value) :: rest =>
    match s.push_datum_at_path value (path ++ [.key key]) indexes with
    | none => none
    | some s1 => Stripe.push_fields s1 rest path indexes
termination_by sizeOf fields

/-- The per-element loop of push_datum_at_path for arrays: element idx
recurses at path ++ Array with the context extended by idx. -/
def Stripe.push_elems (s : Stripe) (elems : List Datum) (path : Path)
    (idx : Nat) (indexes : List Nat) : Option Stripe :=
  match elems with
  | [] => some s
  | value :: rest =>
    match s.push_datum_at_path value (path ++ [.array]) (indexes ++ [idx]) with
    | none => none
    | some s1 => Stripe.push_elems s1 rest path (idx + 1) indexes
termination_by sizeOf elems

end

/-- Stripe::push_datum (src/columnar.rs lines 83-86): push a datum into the
stripe at the empty path with the row counter as the only context index,
then increment the counter. -/
def Stripe.push_datum (s : Stripe) (datum : Datum) : Option Stripe :=
  match s.push_datum_at_path datum [] [s.count] with
  | none => none
  | some s1 => some { s1 with count := s1.count + 1 }

/-- Any finite sequence of top-level pushes. -/
def push_all (s : Stripe) : List Datum → Option Stripe
  | [] => some s
  | d :: rest =>
    match s.push_datum d with
    | none => none
    | some s1 => push_all s1 rest

/-! Helper lemmas about the path-to-column map. -/

theorem lookup_column_mem {cols : List (Path × Column)} {p : Path} {c : Column}
    (h : lookup_column cols p = some c) : (p, c) ∈ cols := by
  induction cols with
  | nil => simp [lookup_column] at h
  | cons pc rest ih =>
    obtain ⟨q, c0⟩ := pc
    by_cases hq : q = p
    · subst hq
      simp [lookup_column] at h
      simp [h]
    · simp [lookup_column, hq] at h
      exact List.mem_cons_of_mem _ (ih h)

theorem mem_update_column {cols : List (Path × Column)} {p : Path} {c : Column}
    {pc : Path × Column} (h : pc ∈ update_column cols p c) :
    pc = (p, c) ∨ pc ∈ cols := by
  unfold update_column at h
  obtain ⟨pc0, hmem, heq⟩ := List.mem_map.mp h
  by_cases hp : pc0.1 = p
  · simp [hp] at heq
    exact Or.inl heq.symm
  · simp [hp] at heq
    subst heq
    exact Or.inr hmem

theorem mem_insert_column {cols : List (Path × Column)} {p : Path} {c : Column}
    {pc : Path × Column} (h : pc ∈ insert_column cols p c) :
    pc ∈ cols ∨ pc = (p, c) := by
  unfold insert_column at h
  rcases List.mem_append.mp h with h1 | h1
  · exact Or.inl h1
  · simp at h1
    exact Or.inr h1

theorem lookup_insert_column_self {cols : List (Path × Column)} {p : Path}
    {c : Column} (h : lookup_column cols p = none) :
    lookup_column (insert_column cols p c) p = some c := by
  induction cols with
  | nil => simp [insert_column, lookup_column]
  | cons pc rest ih =>
    obtain ⟨q, c0⟩ := pc
    by_cases hq : q = p
    · subst hq; simp [lookup_column] at h
    · simp [lookup_column, hq] at h ⊢
      exact ih h

/-! Helper lemmas about the index-push loop. -/

theorem push_indexes_length (w : Nat) (bufs : List (List Nat))
    (ctx : List Nat) : (push_indexes w bufs ctx).length = bufs.length := by
  induction bufs generalizing ctx with
  | nil => simp [push_indexes]
  | cons b bs ih =>
    cases ctx with
    | nil => simp [push_indexes]
    | cons i is => simp [push_indexes, ih]

theorem mem_push_indexes {w : Nat} {bufs : List (List Nat)} {ctx : List Nat}
    (hlen : bufs.length ≤ ctx.length) {buf : List Nat}
    (h : buf ∈ push_indexes w bufs ctx) :
    ∃ b ∈ bufs, buf.length = b.length + 1 := by
  induction bufs generalizing ctx with
  | nil => simp [push_indexes] at h
  | cons b bs ih =>
    cases ctx with
    | nil => simp at hlen
    | cons i is =>
      simp [push_indexes] at h
      rcases h with h | h
      · exact ⟨b, List.mem_cons_self _ _, by simp [h]⟩
      · simp at hlen
        obtain ⟨b0, hb0, hlen0⟩ := ih hlen h
        exact ⟨b0, List.mem_cons_of_mem _ hb0, hlen0⟩

theorem push_indexes_getElem (w : Nat) (bufs : List (List Nat))
    (ctx : List Nat) (i : Nat) (hb : i < bufs.length) (hc : i < ctx.length)
    (hp : i < (push_indexes w bufs ctx).length) :
    (push_indexes w bufs ctx)[i] = bufs[i] ++ [ctx[i] % 2 ^ w] := by
  induction bufs generalizing ctx i with
  | nil => simp at hb
  | cons b bs ih =>
    cases ctx with
    | nil => simp at hc
    | cons x xs =>
      cases i with
      | zero => simp [push_indexes]
      | succ n =>
        simp only [push_indexes, List.getElem_cons_succ]
        exact ih xs n (by simpa using hb) (by simpa using hc)
          (by simpa [push_indexes] using hp)

/-! The alignment predicate of the spec: every index buffer is as long as
the null map, and so is the data payload whenever one exists. -/

/-- Alignment of one column: each index buffer has the null map's length,
and the data payload's entry count (when the representation holds one,
i.e. for every concrete or Union representation) equals it too. -/
def Column.aligned (c : Column) : Prop :=
  (∀ buf ∈ c.indexes, buf.length = c.null_map.length) ∧
  (∀ n, c.data.dataLen = some n → n = c.null_map.length)

/-- Number of Array components of a path: the index depth the shredding
recursion reaches at that path is one more than this. -/
def count_array (path : Path) : Nat :=
  path.countP (fun x => x = PathComponent.array)

/-- The pointwise stripe property each column must satisfy: it is aligned
and its buffer count is one more than the number of Array components of
its path. -/
def col_ok (pc : Path × Column) : Prop :=
  (pc.2).aligned ∧ (pc.2).indexes.length = 1 + count_array pc.1

/-- The stripe invariant: every column satisfies col_ok. -/
def Stripe.wf (s : Stripe) : Prop :=
  ∀ pc ∈ s.columns, col_ok pc

/-! Structural lemmas about up_cast, push_data and add_datum. -/

set_option maxHeartbeats 2000000 in
theorem up_cast_spec {c c1 : Column} {t : InternalType}
    (h : c.up_cast t = some c1) :
    c1.indexes = c.indexes ∧ c1.null_map = c.null_map ∧
      (c1.data.dataLen = c.data.dataLen ∨
        (c.data.dataLen = none ∧ c1.data.dataLen = some c.null_map.length)) := by
  obtain ⟨idx, data, nm⟩ := c
  cases data <;> cases t <;>
    simp_all [Column.up_cast, ColumnData.dataLen] <;>
    simp_all [← h, ColumnData.dataLen]

set_option maxHeartbeats 2000000 in
theorem push_data_dataLen {cd cd1 : ColumnData} {d : Datum}
    (h : push_data cd d = some cd1) :
    (cd.dataLen = none ∧ cd1.dataLen = none) ∨
      ∃ n, cd.dataLen = some n ∧ cd1.dataLen = some (n + 1) := by
  cases cd <;> cases d <;>
    simp_all [push_data, ColumnData.dataLen] <;>
    simp_all [← h, ColumnData.dataLen]

set_option maxHeartbeats 2000000 in
theorem push_data_type_for {cd cd1 : ColumnData} {d : Datum}
    (h : push_data cd d = some cd1) : cd1.type_for = cd.type_for := by
  cases cd <;> cases d <;>
    simp_all [push_data, ColumnData.type_for] <;>
    simp_all [← h, ColumnData.type_for]

theorem add_datum_spec {c c2 : Column} {d : Datum} {ctx : List Nat}
    (h : c.add_datum d ctx = some c2) :
    ∃ c1, c.up_cast d.internal_type = some c1 ∧
      c2.indexes = push_indexes 32 c1.indexes ctx ∧
      c2.null_map = c1.null_map ++ [d.is_null] ∧
      push_data c1.data d = some c2.data := by
  unfold Column.add_datum at h
  cases hu : c.up_cast d.internal_type with
  | none => simp [hu] at h
  | some c1 =>
    simp only [hu] at h
    cases hp : push_data c1.data d with
    | none => simp [hp] at h
    | some cd =>
      simp only [hp] at h
      injection h with h
      subst h
      exact ⟨c1, rfl, rfl, rfl, hp⟩

/-- Feeding a datum into a column whose buffer count matches the context
length keeps it aligned and keeps its buffer count. -/
theorem add_datum_aligned {c c2 : Column} {d : Datum} {ctx : List Nat}
    (hlen : c.indexes.length = ctx.length) (ha : c.aligned)
    (h : c.add_datum d ctx = some c2) :
    c2.aligned ∧ c2.indexes.length = c.indexes.length := by
  obtain ⟨c1, hu, hidx, hnm, hpd⟩ := add_datum_spec h
  obtain ⟨hi1, hn1, hd1⟩ := up_cast_spec hu
  obtain ⟨hbufs, hdata⟩ := ha
  have hc1_aligned : (∀ buf ∈ c1.indexes, buf.length = c1.null_map.length) ∧
      (∀ n, c1.data.dataLen = some n → n = c1.null_map.length) := by
    constructor
    · intro buf hb
      rw [hi1] at hb
      rw [hn1]
      exact hbufs buf hb
    · intro n hdl
      rw [hn1]
      rcases hd1 with h1 | ⟨h1, h2⟩
      · exact hdata n (h1 ▸ hdl)
      · rw [h2] at hdl
        injection hdl with hdl
        omega
  constructor
  · constructor
    · intro buf hb
      rw [hidx] at hb
      have hlen1 : c1.indexes.length ≤ ctx.length := by
        rw [hi1, hlen]
      obtain ⟨b0, hb0, hlb⟩ := mem_push_indexes hlen1 hb
      rw [hnm]
      simp only [List.length_append, List.length_singleton]
      rw [hlb, hc1_aligned.1 b0 hb0]
    · intro n hdl
      rw [hnm]
      simp only [List.length_append, List.length_singleton]
      rcases push_data_dataLen hpd with ⟨h1, h2⟩ | ⟨m, h1, h2⟩
      · rw [h2] at hdl
        exact absurd hdl (by simp)
      · rw [h2] at hdl
        injection hdl with hdl
        have := hc1_aligned.2 m h1
        omega
  · rw [hidx, push_indexes_length, hi1]

/-- A fresh column of a given depth is aligned and has that many (empty)
index buffers. -/
theorem column_new_aligned (n : Nat) :
    (Column.new n).aligned ∧ (Column.new n).indexes.length = n := by
  refine ⟨⟨?_, ?_⟩, by simp [Column.new]⟩
  · intro buf hb
    simp [Column.new] at hb
    simp [hb, Column.new]
  · intro m hm
    simp [Column.new, ColumnData.dataLen] at hm

/-- Updating one key and keeping the rest preserves any pointwise property
of the map entries. -/
theorem forall_mem_update_column {P : Path × Column → Prop}
    {cols : List (Path × Column)} {path : Path} {c : Column}
    (hwf : ∀ pc ∈ cols, P pc) (hc : P (path, c)) :
    ∀ pc ∈ update_column cols path c, P pc := by
  intro pc hpc
  rcases mem_update_column hpc with h | h
  · exact h ▸ hc
  · exact hwf pc h

/-- The column step of the shredding recursion preserves the stripe
invariant, provided the context length matches the path depth. -/
theorem step_column_wf {cols cols1 : List (Path × Column)} {path : Path}
    {d : Datum} {ctx : List Nat}
    (hwf : ∀ pc ∈ cols, col_ok pc)
    (hctx : ctx.length = 1 + count_array path)
    (h : step_column cols path d ctx = some cols1) :
    ∀ pc ∈ cols1, col_ok pc := by
  unfold step_column at h
  cases hl : lookup_column cols path with
  | none =>
    have hli := lookup_insert_column_self (c := Column.new ctx.length) hl
    simp only [hl, Option.isNone_none, if_true, hli] at h
    cases had : (Column.new ctx.length).add_datum d ctx with
    | none => simp [had] at h
    | some col1 =>
      simp only [had] at h
      injection h with h
      subst h
      obtain ⟨hna, hnl⟩ := column_new_aligned ctx.length
      obtain ⟨ha1, hl1⟩ := add_datum_aligned (by rw [hnl]) hna had
      refine forall_mem_update_column ?_ ?_
      · intro pc hpc
        rcases mem_insert_column hpc with hm | hm
        · exact hwf pc hm
        · subst hm
          exact ⟨hna, by rw [hnl, hctx]⟩
      · exact ⟨ha1, by rw [hl1, hnl, hctx]⟩
  | some col =>
    have hcol := hwf (path, col) (lookup_column_mem hl)
    simp only [hl, Option.isNone_some, Bool.false_eq_true, if_false] at h
    split at h
    · exact absurd h (by simp)
    · rename_i col1 had
      injection h with h
      subst h
      obtain ⟨ha1, hl1⟩ :=
        add_datum_aligned (by rw [hcol.2, hctx]) hcol.1 had
      exact forall_mem_update_column hwf ⟨ha1, by rw [hl1, hcol.2]⟩

theorem count_array_key (path : Path) (k : String) :
    count_array (path ++ [PathComponent.key k]) = count_array path := by
  simp [count_array]

theorem count_array_arr (path : Path) :
    count_array (path ++ [PathComponent.array]) = count_array path + 1 := by
  simp [count_array]

set_option maxHeartbeats 2000000 in
theorem push_datum_at_path_wf :
    ∀ (s : Stripe) (d : Datum) (path : Path) (ctx : List Nat),
      ∀ s', Stripe.wf s → ctx.length = 1 + count_array path →
        s.push_datum_at_path d path ctx = some s' → Stripe.wf s' := by
  intro s d path ctx
  induction s, d, path, ctx using Stripe.push_datum_at_path.induct
  case motive2 =>
    rename_i s elems path idx ctx
    exact ∀ s', Stripe.wf s → ctx.length = 1 + count_array path →
      Stripe.push_elems s elems path idx ctx = some s' → Stripe.wf s'
  case motive3 =>
    rename_i s fields path ctx
    exact ∀ s', Stripe.wf s → ctx.length = 1 + count_array path →
      Stripe.push_fields s fields path ctx = some s' → Stripe.wf s'
  case case1 =>
    rename_i s datum path ctx hm
    intro s' hwf hctx hp
    simp only [Stripe.push_datum_at_path, hm, if_true, Option.some.injEq] at hp
    subst hp
    exact hwf
  case case2 =>
    rename_i s datum path ctx hm hstep
    intro s' hwf hctx hp
    simp [Stripe.push_datum_at_path, hm, hstep] at hp
  case case3 =>
    rename_i s path ctx cols1 obj hm hstep ih1
    intro s' hwf hctx hp
    simp only [Stripe.push_datum_at_path, hstep] at hp
    rw [if_neg hm] at hp
    exact ih1 s' (fun pc hpc => step_column_wf hwf hctx hstep pc hpc) hctx hp
  case case4 =>
    rename_i s path ctx cols1 arr hm hstep ih1
    intro s' hwf hctx hp
    simp only [Stripe.push_datum_at_path, hstep] at hp
    rw [if_neg hm] at hp
    exact ih1 s' (fun pc hpc => step_column_wf hwf hctx hstep pc hpc) hctx hp
  case case5 =>
    rename_i s datum path ctx hm cols1 hstep hnobj hnarr
    intro s' hwf hctx hp
    cases datum
    case object obj => exact ((hnobj obj rfl)).elim
    case array arr => exact ((hnarr arr rfl)).elim
    case missing => exact absurd rfl hm
    all_goals simp [Stripe.push_datum_at_path, Datum.is_missing, hstep] at hp
    all_goals subst hp
    all_goals exact fun pc hpc => step_column_wf hwf hctx hstep pc hpc
  case case6 =>
    rename_i s path idx ctx
    intro s' hwf hctx hp
    simp only [Stripe.push_elems, Option.some.injEq] at hp
    subst hp
    exact hwf
  case case7 =>
    rename_i s path idx ctx value rest hfail ih1
    intro s' hwf hctx hp
    simp [Stripe.push_elems, hfail] at hp
  case case8 =>
    rename_i s path idx ctx value rest s1 hones ih2 ih1
    intro s' hwf hctx hp
    simp only [Stripe.push_elems, hones] at hp
    have hctx1 : (ctx ++ [idx]).length =
        1 + count_array (path ++ [PathComponent.array]) := by
      simp [count_array_arr, hctx]
      omega
    exact ih1 s' (ih2 s1 hwf hctx1 hones) hctx hp
  case case9 =>
    rename_i s path ctx
    intro s' hwf hctx hp
    simp only [Stripe.push_fields, Option.some.injEq] at hp
    subst hp
    exact hwf
  case case10 =>
    rename_i s path ctx k value rest hfail ih1
    intro s' hwf hctx hp
    simp [Stripe.push_fields, hfail] at hp
  case case11 =>
    rename_i s path ctx k value rest s1 hones ih2 ih1
    intro s' hwf hctx hp
    simp only [Stripe.push_fields, hones] at hp
    have hctx1 : ctx.length = 1 + count_array (path ++ [PathComponent.key k]) := by
      rw [count_array_key]
      exact hctx
    exact ih1 s' (ih2 s1 hwf hctx1 hones) hctx hp


set_option maxHeartbeats 2000000 in
theorem push_datum_at_path_count :
    ∀ (s : Stripe) (d : Datum) (path : Path) (ctx : List Nat),
      ∀ s', s.push_datum_at_path d path ctx = some s' → s'.count = s.count := by
  intro s d path ctx
  induction s, d, path, ctx using Stripe.push_datum_at_path.induct
  case motive2 =>
    rename_i s elems path idx ctx
    exact ∀ s', Stripe.push_elems s elems path idx ctx = some s' →
      s'.count = s.count
  case motive3 =>
    rename_i s fields path ctx
    exact ∀ s', Stripe.push_fields s fields path ctx = some s' →
      s'.count = s.count
  case case1 =>
    rename_i s datum path ctx hm
    intro s' hp
    simp only [Stripe.push_datum_at_path, hm, if_true, Option.some.injEq] at hp
    subst hp
    rfl
  case case2 =>
    rename_i s datum path ctx hm hstep
    intro s' hp
    simp [Stripe.push_datum_at_path, hm, hstep] at hp
  case case3 =>
    rename_i s path ctx cols1 obj hm hstep ih1
    intro s' hp
    simp only [Stripe.push_datum_at_path, hstep] at hp
    rw [if_neg hm] at hp
    exact ih1 s' hp
  case case4 =>
    rename_i s path ctx cols1 arr hm hstep ih1
    intro s' hp
    simp only [Stripe.push_datum_at_path, hstep] at hp
    rw [if_neg hm] at hp
    exact ih1 s' hp
  case case5 =>
    rename_i s datum path ctx hm cols1 hstep hnobj hnarr
    intro s' hp
    cases datum
    case object obj => exact ((hnobj obj rfl)).elim
    case array arr => exact ((hnarr arr rfl)).elim
    case missing => exact absurd rfl hm
    all_goals simp [Stripe.push_datum_at_path, Datum.is_missing, hstep] at hp
    all_goals subst hp
    all_goals rfl
  case case6 =>
    rename_i s path idx ctx
    intro s' hp
    simp only [Stripe.push_elems, Option.some.injEq] at hp
    subst hp
    rfl
  case case7 =>
    rename_i s path idx ctx value rest hfail ih1
    intro s' hp
    simp [Stripe.push_elems, hfail] at hp
  case case8 =>
    rename_i s path idx ctx value rest s1 hones ih2 ih1
    intro s' hp
    simp only [Stripe.push_elems, hones] at hp
    rw [ih1 s' hp]
    exact ih2 s1 hones
  case case9 =>
    rename_i s path ctx
    intro s' hp
    simp only [Stripe.push_fields, Option.some.injEq] at hp
    subst hp
    rfl
  case case10 =>
    rename_i s path ctx k value rest hfail ih1
    intro s' hp
    simp [Stripe.push_fields, hfail] at hp
  case case11 =>
    rename_i s path ctx k value rest s1 hones ih2 ih1
    intro s' hp
    simp only [Stripe.push_fields, hones] at hp
    rw [ih1 s' hp]
    exact ih2 s1 hones

/-- Stripe::push_datum preserves the stripe invariant. -/
theorem push_datum_wf {s s' : Stripe} (hwf : Stripe.wf s)
    (h : s.push_datum d = some s') : Stripe.wf s' := by
  unfold Stripe.push_datum at h
  cases hp : s.push_datum_at_path d [] [s.count] with
  | none => simp [hp] at h
  | some s1 =>
    simp only [hp, Option.some.injEq] at h
    subst h
    have := push_datum_at_path_wf s d [] [s.count] s1 hwf (by simp [count_array])
      hp
    exact this

/-- Any sequence of pushes from any invariant-satisfying stripe preserves
the invariant. -/
theorem push_all_wf {l : List Datum} :
    ∀ {s s' : Stripe}, Stripe.wf s → push_all s l = some s' → Stripe.wf s' := by
  induction l with
  | nil =>
    intro s s' hwf h
    simp only [push_all, Option.some.injEq] at h
    subst h
    exact hwf
  | cons d rest ih =>
    intro s s' hwf h
    simp only [push_all] at h
    cases hp : s.push_datum d with
    | none => simp [hp] at h
    | some s1 =>
      simp only [hp] at h
      exact ih (push_datum_wf hwf hp) h

/-- The empty stripe satisfies the invariant. -/
theorem stripe_new_wf : Stripe.wf Stripe.new := by
  intro pc hpc
  simp [Stripe.new] at hpc

/-! The type lattice. -/

/-- The upward moves of the column type lattice: reflexivity, Null below
every type, and the numeric widenings i8 to i16, i8 to f64 and i16 to
f64. -/
def widens_to : InternalType → InternalType → Bool
  | .null, _ => true
  | .tinyInt, .smallInt => true
  | .tinyInt, .float => true
  | .smallInt, .float => true
  | t, u => t == u

theorem widens_to_trans {t u v : InternalType}
    (h1 : widens_to t u = true) (h2 : widens_to u v = true) :
    widens_to t v = true := by
  revert h1 h2
  cases t <;> cases u <;> cases v <;> decide

theorem widens_to_union {u : InternalType}
    (h : widens_to .union u = true) : u = .union := by
  revert h
  cases u <;> decide

set_option maxHeartbeats 2000000 in
theorem up_cast_widens {c c1 : Column} {t : InternalType}
    (h : c.up_cast t = some c1) :
    widens_to c.data.type_for c1.data.type_for = true := by
  obtain ⟨idx, data, nm⟩ := c
  cases data <;> cases t <;>
    simp_all [Column.up_cast, ColumnData.type_for, widens_to] <;>
    simp_all [← h, ColumnData.type_for, widens_to]

/-- One append only widens the representation. -/
theorem add_datum_widens {c c2 : Column} {d : Datum} {ctx : List Nat}
    (h : c.add_datum d ctx = some c2) :
    widens_to c.data.type_for c2.data.type_for = true := by
  obtain ⟨c1, hu, _, _, hpd⟩ := add_datum_spec h
  rw [push_data_type_for hpd]
  exact up_cast_widens hu

/-- Any finite sequence of appends to one column. -/
def add_all (c : Column) : List (Datum × List Nat) → Option Column
  | [] => some c
  | (d, ctx) :: rest =>
    match c.add_datum d ctx with
    | none => none
    | some c1 => add_all c1 rest

/-- Appending to a Union column: up_cast is a no-op there, so the append
always succeeds for non-Missing data and stays Union. -/
theorem union_accepts {c : Column} {v : List Union} (hc : c.data = .union v)
    (d : Datum) (hd : d ≠ .missing) (ctx : List Nat) :
    ∃ c2, c.add_datum d ctx = some c2 ∧
      ∃ w, c2.data = .union w := by
  obtain ⟨idx, data, nm⟩ := c
  simp only at hc
  subst hc
  cases d <;>
    simp [Column.add_datum, Column.up_cast, push_data, Datum.internal_type]
  exact absurd rfl hd

/-! Claim theorems. -/

/-- C1: after any finite sequence of push_datum calls into a fresh Stripe,
every Column of the resulting Stripe is aligned: each index buffer has
null_map's length, and the data payload's entry count equals null_map's
length whenever the representation holds a data vector (every concrete or
Union representation; the untyped Null representation has none). -/
theorem alignment_invariant (l : List Datum) (s : Stripe)
    (h : push_all Stripe.new l = some s) :
    ∀ pc ∈ s.columns, Column.aligned pc.2 := by
  intro pc hpc
  exact (push_all_wf stripe_new_wf h pc hpc).1

theorem alignment_invariant_witness :
    Column.aligned { indexes := [[0]], data := .tinyInt [5],
                     null_map := [false] } := by
  refine alignment_invariant [Datum.tinyInt 5]
    { columns := [([], { indexes := [[0]], data := .tinyInt [5],
                         null_map := [false] })], count := 1 }
    ?_ ([], _) ?_
  · simp [push_all, Stripe.push_datum, Stripe.push_datum_at_path, step_column,
      Stripe.new, lookup_column, insert_column, update_column, Column.new,
      Column.add_datum, Column.up_cast, push_data, push_indexes,
      Datum.is_missing, Datum.is_null, Datum.internal_type]
  · simp

/-- C9: a successful top-level push_datum increments the row counter by
exactly one, and a Missing push additionally leaves the column map (hence
every existing Column's buffers) untouched. -/
theorem push_datum_count (s s1 : Stripe) (d : Datum)
    (h : s.push_datum d = some s1) :
    s1.count = s.count + 1 ∧ (d = .missing → s1.columns = s.columns) := by
  unfold Stripe.push_datum at h
  cases hp : s.push_datum_at_path d [] [s.count] with
  | none => simp [hp] at h
  | some s2 =>
    simp only [hp, Option.some.injEq] at h
    subst h
    refine ⟨by simp [push_datum_at_path_count s d [] [s.count] s2 hp], ?_⟩
    intro hd
    subst hd
    simp [Stripe.push_datum_at_path, Datum.is_missing] at hp
    rw [← hp]

theorem push_datum_count_witness :
    (Stripe.mk [] 1).count = Stripe.new.count + 1 ∧
      (Datum.missing = Datum.missing →
        (Stripe.mk [] 1).columns = Stripe.new.columns) :=
  push_datum_count Stripe.new (Stripe.mk [] 1) Datum.missing
    (by simp [Stripe.push_datum, Stripe.push_datum_at_path, Stripe.new,
      Datum.is_missing])

/-- C4: over any sequence of appends to one Column, the data
representation only moves upward in the widening lattice (Null below
everything, i8 to i16 to f64), and Union is terminal: once the
representation is Union every further successful append leaves it Union,
and any non-Missing value is indeed accepted. -/
theorem widens_to_refl (t : InternalType) : widens_to t t = true := by
  cases t <;> decide

theorem add_all_widens :
    ∀ (l : List (Datum × List Nat)) (c c2 : Column),
      add_all c l = some c2 →
        widens_to c.data.type_for c2.data.type_for = true := by
  intro l
  induction l with
  | nil =>
    intro c c2 h
    simp only [add_all, Option.some.injEq] at h
    subst h
    exact widens_to_refl _
  | cons p rest ih =>
    intro c c2 h
    obtain ⟨d, ctx⟩ := p
    simp only [add_all] at h
    cases hs : c.add_datum d ctx with
    | none => simp [hs] at h
    | some c1 =>
      simp only [hs] at h
      exact widens_to_trans (add_datum_widens hs) (ih c1 c2 h)

theorem type_lattice_monotone (c c2 : Column) (l : List (Datum × List Nat))
    (h : add_all c l = some c2) :
    widens_to c.data.type_for c2.data.type_for = true ∧
      (c.data.type_for = .union → c2.data.type_for = .union) ∧
      (∀ v, c.data = .union v → ∀ d, d ≠ .missing → ∀ ctx,
        ∃ c3, c.add_datum d ctx = some c3 ∧ ∃ w, c3.data = .union w) := by
  have hmono := add_all_widens l c c2 h
  refine ⟨hmono, ?_, ?_⟩
  · intro hu
    rw [hu] at hmono
    exact widens_to_union hmono
  · intro v hv d hd ctx
    exact union_accepts hv d hd ctx

theorem type_lattice_monotone_witness :
    (widens_to (Column.mk [] (.union []) []).data.type_for
        (Column.mk [] (.union [.bool true]) [false]).data.type_for = true) ∧
      ((Column.mk [] (.union []) []).data.type_for = .union →
        (Column.mk [] (.union [.bool true]) [false]).data.type_for = .union) ∧
      (∀ v, (Column.mk [] (.union []) []).data = .union v →
        ∀ d, d ≠ .missing → ∀ ctx, ∃ c3,
          (Column.mk [] (.union []) []).add_datum d ctx = some c3 ∧
            ∃ w, c3.data = .union w) :=
  type_lattice_monotone (Column.mk [] (.union []) [])
    (Column.mk [] (.union [.bool true]) [false]) [(Datum.bool true, [])]
    (by simp [add_all, Column.add_datum, Column.up_cast, push_data,
      Datum.internal_type, Datum.is_null, push_indexes])

/-- C8: one append pushes onto index buffer i exactly the context entry i
reduced mod 2 to the 32 (the usize index stored as u32 in the revised
column); the older revision's loop stores it mod 2 to the 16 (u16). -/
theorem index_entry_mod (c c2 : Column) (d : Datum) (ctx : List Nat)
    (h : c.add_datum d ctx = some c2) (i : Nat)
    (hb : i < c.indexes.length) (hc : i < ctx.length)
    (h2 : i < c2.indexes.length) :
    c2.indexes[i] = c.indexes[i] ++ [ctx[i] % 2 ^ 32] ∧
      (∀ (bufs : List (List Nat)) (j : Nat) (hj : j < bufs.length)
        (hcj : j < ctx.length) (hpj : j < (push_indexes 16 bufs ctx).length),
        (push_indexes 16 bufs ctx)[j] = bufs[j] ++ [ctx[j] % 2 ^ 16]) := by
  refine ⟨?_, fun bufs j hj hcj hpj => push_indexes_getElem 16 bufs ctx j hj hcj hpj⟩
  obtain ⟨c1, hu, hidx, _, _⟩ := add_datum_spec h
  obtain ⟨hi1, _, _⟩ := up_cast_spec hu
  rw [hi1] at hidx
  have hlen : i < (push_indexes 32 c.indexes ctx).length := by
    rw [push_indexes_length]
    exact hb
  have := push_indexes_getElem 32 c.indexes ctx i hb hc hlen
  simp only [hidx]
  exact this

theorem index_entry_mod_witness :
    ((Column.mk [[5]] (.tinyInt [0]) [false]).indexes[0] =
        (Column.new 1).indexes[0] ++ [(5 : Nat) % 2 ^ 32] ∧
      (∀ (bufs : List (List Nat)) (j : Nat) (hj : j < bufs.length)
        (hcj : j < [5].length)
        (hpj : j < (push_indexes 16 bufs [5]).length),
        (push_indexes 16 bufs [5])[j] = bufs[j] ++ [(5 : Nat) % 2 ^ 16])) := by
  have h := index_entry_mod (Column.new 1)
    (Column.mk [[5]] (.tinyInt [0]) [false]) (Datum.tinyInt 0) [5]
    (by simp [Column.add_datum, Column.new, Column.up_cast, push_data,
      push_indexes, Datum.internal_type, Datum.is_null])
    0 (by simp [Column.new]) (by simp) (by simp)
  simpa using h

/-- C10: appending an 8-bit or a 16-bit integer to a Union column stores a
Float-tagged Union entry whose payload is the integer's exact numeric
value (the Union type has no integer-tagged variant, so the narrow type is
lost while the value is preserved). -/
theorem union_int_as_float (c : Column) (v : List Union)
    (hc : c.data = .union v) (i : Int) (ctx : List Nat) :
    (c.add_datum (.tinyInt i) ctx).map Column.data =
        some (.union (v ++ [.float (i : Rat)])) ∧
      (c.add_datum (.smallInt i) ctx).map Column.data =
        some (.union (v ++ [.float (i : Rat)])) := by
  obtain ⟨idx, data, nm⟩ := c
  simp only at hc
  subst hc
  constructor <;>
    simp [Column.add_datum, Column.up_cast, push_data, Datum.internal_type,
      Datum.is_null]

theorem union_int_as_float_witness :
    ((Column.mk [] (.union []) []).add_datum (.tinyInt 7) []).map Column.data =
        some (.union [Union.float (7 : Rat)]) ∧
      ((Column.mk [] (.union []) []).add_datum (.smallInt 7) []).map
          Column.data =
        some (.union [Union.float (7 : Rat)]) := by
  have := union_int_as_float (Column.mk [] (.union []) []) [] rfl 7 []
  simpa using this

/-- C5: pushing the records with no "a", with "a" null, and with "a" 1
yields at path Key "a" a column with exactly two entries, null map true
then false, row index buffer 1 then 2; the missing first row contributes
nothing anywhere (the root object column holds its three size entries). -/
theorem missing_invisibility :
    push_all Stripe.new
        [Datum.object [], Datum.object [("a", Datum.null)],
         Datum.object [("a", Datum.tinyInt 1)]] =
      some { columns := [([], { indexes := [[0, 1, 2]],
                                data := .object [0, 1, 1],
                                null_map := [false, false, false] }),
                         ([PathComponent.key "a"],
                          { indexes := [[1, 2]],
                            data := .tinyInt [0, 1],
                            null_map := [true, false] })],
             count := 3 } ∧
    (push_all Stripe.new
        [Datum.object [], Datum.object [("a", Datum.null)],
         Datum.object [("a", Datum.tinyInt 1)]]).bind
        (fun s => s.get_column [PathComponent.key "a"]) =
      some { indexes := [[1, 2]], data := .tinyInt [0, 1],
             null_map := [true, false] } := by
  constructor <;>
    simp [push_all, Stripe.push_datum, Stripe.push_datum_at_path,
      Stripe.push_fields, step_column, Stripe.new, Stripe.get_column,
      lookup_column, insert_column, update_column, Column.new,
      Column.add_datum, Column.up_cast, push_data, push_indexes,
      Datum.is_missing, Datum.is_null, Datum.internal_type]

/-- C6: pushing the records with "a" holding the array 1, 2 and with "a"
holding the empty array yields at path Key "a" an Array size column with
entries 2 then 0, and at path Key "a", Array a value column with the two
entries 1 and 2 whose row (depth 0) index buffer is 0, 0 and whose depth 1
index buffer is 0, 1. -/
theorem nested_array_indexing :
    push_all Stripe.new
        [Datum.object [("a", Datum.array [Datum.tinyInt 1, Datum.tinyInt 2])],
         Datum.object [("a", Datum.array [])]] =
      some { columns := [([], { indexes := [[0, 1]],
                                data := .object [1, 1],
                                null_map := [false, false] }),
                         ([PathComponent.key "a"],
                          { indexes := [[0, 1]],
                            data := .array [2, 0],
                            null_map := [false, false] }),
                         ([PathComponent.key "a", PathComponent.array],
                          { indexes := [[0, 0], [0, 1]],
                            data := .tinyInt [1, 2],
                            null_map := [false, false] })],
             count := 2 } := by
  simp [push_all, Stripe.push_datum, Stripe.push_datum_at_path,
    Stripe.push_fields, Stripe.push_elems, step_column, Stripe.new,
    lookup_column, insert_column, update_column, Column.new,
    Column.add_datum, Column.up_cast, push_data, push_indexes,
    Datum.is_missing, Datum.is_null, Datum.internal_type]

/-- C7: pushing an 8-bit integer, then a 16-bit integer, then a float at
the same (top level) path ends in a Float column whose first two entries
are exactly the widened integers, for every choice of values. -/
theorem numeric_widening_exact (i j : Int) (f : Rat) :
    push_all Stripe.new [Datum.tinyInt i, Datum.smallInt j, Datum.float f] =
      some { columns := [([], { indexes := [[0, 1, 2]],
                                data := .float [(i : Rat), (j : Rat), f],
                                null_map := [false, false, false] })],
             count := 3 } := by
  simp [push_all, Stripe.push_datum, Stripe.push_datum_at_path, step_column,
    Stripe.new, lookup_column, insert_column, update_column, Column.new,
    Column.add_datum, Column.up_cast, push_data, push_indexes,
    Datum.is_missing, Datum.is_null, Datum.internal_type]

/-- C2 (evaluation at the failing input): pushing Bool true and then the
String "x" at the top-level path aborts — the String reaches a Bool
column, Column::up_cast falls into its todo! arm and the process panics,
so push is not total on well-formed input. -/
theorem push_string_at_bool_column_aborts :
    push_all Stripe.new [Datum.bool true, Datum.string "x"] = none := by
  simp [push_all, Stripe.push_datum, Stripe.push_datum_at_path, step_column,
    Stripe.new, lookup_column, insert_column, update_column, Column.new,
    Column.add_datum, Column.up_cast, push_data, push_indexes,
    Datum.is_missing, Datum.is_null, Datum.internal_type]

/-- C3 (evaluation at the failing input): pushing Bool then String at the
path Key "a" does not convert the column to Union — the whole push aborts
in Column::up_cast (todo!), so no stripe and no Union entries result. -/
theorem bool_then_string_aborts_no_union :
    push_all Stripe.new
        [Datum.object [("a", Datum.bool true)],
         Datum.object [("a", Datum.string "x")]] = none := by
  simp [push_all, Stripe.push_datum, Stripe.push_datum_at_path,
    Stripe.push_fields, step_column, Stripe.new, lookup_column,
    insert_column, update_column, Column.new, Column.add_datum,
    Column.up_cast, push_data, push_indexes, Datum.is_missing,
    Datum.is_null, Datum.internal_type]

end Jsonc
